import Mathlib

/-!
Verification of the commit-ingestion and hierarchical-aggregation engine of
the codecv repository against its natural-language specification.

The Python sources are shallowly embedded:
* dictionaries (insertion ordered) become association lists;
* Python floats become exact rationals (ℚ), with `round(x, 2)` embedded as
  round-half-to-even at two decimals;
* code that can raise (the weekly `_consolidate_technologies`, the
  summarizers that call it, the file cache wrapping a possibly-raising
  stage) returns `Option`;
* external collaborators (technology detector, LLM text summarizer) are
  function parameters.
-/

/-- A Python dict mapping technology name to weight/percentage,
as an insertion-ordered association list (`src/summarizer/*.py`). -/
abbrev WeightMap := List (String × ℚ)

/-- Sum of the values of a weight map (`sum(d.values())`). -/
def sumVals (l : WeightMap) : ℚ := (l.map Prod.snd).sum

/-- The keys of a weight map, in iteration order (`list(d.keys())`). -/
def keysOf (l : WeightMap) : List String := l.map Prod.fst

/-- `defaultdict(float)` accumulation: `d[tech] += weight`.  Adds to the
existing entry, or appends a new entry at the end (dict insertion order). -/
def addWeight : WeightMap → String → ℚ → WeightMap
  | [], t, w => [(t, w)]
  | (k, v) :: rest, t, w =>
    if k = t then (k, v + w) :: rest else (k, v) :: addWeight rest t w

/-- The `technology_totals` / `tech_weights` accumulation loop shared by
`MonthlySummarizer._consolidate_technologies` (monthly_summarizer.py
lines 108-113) and `WeeklySummarizer._consolidate_technologies`
(weekly_summarizer.py lines 83-87): sum weights per technology across
all the input maps. -/
def technologyTotals (group : List WeightMap) : WeightMap :=
  group.foldl (fun acc m => m.foldl (fun a p => addWeight a p.1 p.2) acc) []

/-- Round-half-to-even to an integer, the idealized semantics of Python's
builtin `round` (banker's rounding). -/
def roundHalfEven (x : ℚ) : ℤ :=
  let n := ⌊x⌋
  let frac := x - n
  if frac < 1 / 2 then n
  else if 1 / 2 < frac then n + 1
  else if n % 2 = 0 then n else n + 1

/-- Python `round(p, 2)`: round half to even at two decimal places. -/
def round2 (x : ℚ) : ℚ := (roundHalfEven (x * 100) : ℚ) / 100

/-- The `percentages` dict comprehension of both consolidators:
`tech: (weight / total) * 100`. -/
def percentagesOf (group : List WeightMap) : WeightMap :=
  (technologyTotals group).map
    (fun p => (p.1, p.2 / sumVals (technologyTotals group) * 100))

/-- The `rounded_percentages` dict: `tech: round(p, 2)`. -/
def roundedOf (group : List WeightMap) : WeightMap :=
  (percentagesOf group).map (fun p => (p.1, round2 p.2))

/-- The `decimal_diffs` dict of both consolidators:
`tech: percentages[tech] - math.floor(percentages[tech] * 100) / 100`. -/
def decimalDiffsOf (group : List WeightMap) : WeightMap :=
  (percentagesOf group).map (fun p => (p.1, p.2 - (⌊p.2 * 100⌋ : ℚ) / 100))

/-- Stable insertion (descending by value) used to model Python's stable
`sorted(decimal_diffs, key=..., reverse=True)`: the new element goes in
front of the first element whose value is ≤ its own, so that an earlier
element wins ties against later ones. -/
def insertDesc (x : String × ℚ) : WeightMap → WeightMap
  | [] => [x]
  | y :: ys => if y.2 ≤ x.2 then x :: y :: ys else y :: insertDesc x ys

/-- Stable sort, descending by value (`sorted(..., reverse=True)`). -/
def sortDesc : WeightMap → WeightMap
  | [] => []
  | x :: xs => insertDesc x (sortDesc xs)

/-- `rounded_percentages[k] += d`: bump the entry with key `k`. -/
def updAdd : WeightMap → String → ℚ → WeightMap
  | [], _, _ => []
  | (t, v) :: rest, k, d =>
    if t = k then (t, v + d) :: rest else (t, v) :: updAdd rest k d

/-- Lexicographic comparison of char lists (Python string `<=`). -/
def charListLe : List Char → List Char → Bool
  | [], _ => true
  | _ :: _, [] => false
  | c :: cs, d :: ds => if c < d then true else if d < c then false else charListLe cs ds

/-- Python string comparison `s <= t`. -/
def strLe (s t : String) : Bool := charListLe s.data t.data

/-- Stable insertion, ascending by key, modelling `dict(sorted(d.items()))`. -/
def insertKey (x : String × ℚ) : WeightMap → WeightMap
  | [] => [x]
  | y :: ys => if strLe x.1 y.1 then x :: y :: ys else y :: insertKey x ys

/-- `dict(sorted(d.items()))`: sort the entries by key. -/
def sortKey : WeightMap → WeightMap
  | [] => []
  | x :: xs => insertKey x (sortKey xs)

/-- `d[t]` lookup (first entry with key `t`). -/
def lookupW (t : String) : WeightMap → Option ℚ
  | [] => none
  | (k, v) :: rest => if k = t then some v else lookupW t rest

/-- `MonthlySummarizer._consolidate_technologies`
(monthly_summarizer.py lines 91-149).  Aggregates the weight maps of the
member records, guards `total == 0` by returning `{}`, converts to
percentages, rounds to two decimals, and if the rounded values do not sum
to 100 adds the whole difference to the technology with the greatest
decimal remainder (`sorted_techs[0]`); finally returns the dict sorted by
key.  The `[]` branch of the match is unreachable under the guard (Python
would raise `IndexError` there). -/
def consolidate_technologies_monthly (group : List WeightMap) : WeightMap :=
  let total := sumVals (technologyTotals group)
  if total = 0 then []
  else
    let rounded := roundedOf group
    let current_sum := sumVals rounded
    if current_sum = 100 then sortKey rounded
    else
      match sortDesc (decimalDiffsOf group) with
      | [] => []
      | c :: _ => sortKey (updAdd rounded c.1 (100 - current_sum))

/-- `WeeklySummarizer._consolidate_technologies`
(weekly_summarizer.py lines 73-118).  Same algorithm as the monthly
version but WITHOUT the `total == 0` guard: with a non-empty totals dict
whose total weight is 0 the percentage comprehension raises
`ZeroDivisionError` (modelled as `none`), and with an empty totals dict
the adjustment branch evaluates `sorted_techs[0]` on an empty list and
raises `IndexError` (also `none`). -/
def consolidate_technologies_weekly (group : List WeightMap) :
    Option WeightMap :=
  let tech_weights := technologyTotals group
  let total := sumVals tech_weights
  if tech_weights ≠ [] ∧ total = 0 then none
  else
    let rounded := roundedOf group
    let current_sum := sumVals rounded
    if current_sum = 100 then some (sortKey rounded)
    else
      match sortDesc (decimalDiffsOf group) with
      | [] => none
      | c :: _ => some (sortKey (updAdd rounded c.1 (100 - current_sum)))

/-! ### Association-list lemmas -/

theorem sumVals_nil : sumVals [] = 0 := rfl

theorem sumVals_cons (p : String × ℚ) (l : WeightMap) :
    sumVals (p :: l) = p.2 + sumVals l := by
  simp [sumVals]

theorem sumVals_addWeight (l : WeightMap) (t : String) (w : ℚ) :
    sumVals (addWeight l t w) = sumVals l + w := by
  induction l with
  | nil => simp [addWeight, sumVals]
  | cons p rest ih =>
    obtain ⟨k, v⟩ := p
    by_cases h : k = t <;> simp [addWeight, h, sumVals_cons, ih] <;> ring

theorem keysOf_addWeight (l : WeightMap) (t : String) (w : ℚ) :
    keysOf (addWeight l t w) =
      if t ∈ keysOf l then keysOf l else keysOf l ++ [t] := by
  induction l with
  | nil => simp [addWeight, keysOf]
  | cons p rest ih =>
    obtain ⟨k, v⟩ := p
    simp only [keysOf, List.map_cons] at ih ⊢
    by_cases h : k = t
    · subst h; simp [addWeight, keysOf]
    · have hne : t ≠ k := fun hh => h hh.symm
      rw [addWeight, if_neg h]
      simp only [keysOf, List.map_cons, List.mem_cons] at ih ⊢
      by_cases hm : t ∈ List.map Prod.fst rest
      · rw [if_pos hm] at ih
        simp [ih, hne, hm]
      · rw [if_neg hm] at ih
        simp [ih, hne, hm]

theorem nodup_keys_addWeight (l : WeightMap) (t : String) (w : ℚ)
    (h : (keysOf l).Nodup) : (keysOf (addWeight l t w)).Nodup := by
  rw [keysOf_addWeight]
  by_cases hm : t ∈ keysOf l
  · simpa [hm] using h
  · rw [if_neg hm]
    simp [List.nodup_append, h, hm]

theorem nodup_keys_technologyTotals (group : List WeightMap) :
    (keysOf (technologyTotals group)).Nodup := by
  have main : ∀ (g : List WeightMap) (acc : WeightMap),
      (keysOf acc).Nodup →
      (keysOf (g.foldl
        (fun acc m => m.foldl (fun a p => addWeight a p.1 p.2) acc) acc)).Nodup := by
    intro g
    induction g with
    | nil => intro acc h; simpa using h
    | cons m rest ih =>
      intro acc h
      simp only [List.foldl_cons]
      apply ih
      have inner : ∀ (mm : WeightMap) (a : WeightMap),
          (keysOf a).Nodup →
          (keysOf (mm.foldl (fun a p => addWeight a p.1 p.2) a)).Nodup := by
        intro mm
        induction mm with
        | nil => intro a ha; simpa using ha
        | cons p ps ihp =>
          intro a ha
          simp only [List.foldl_cons]
          exact ihp _ (nodup_keys_addWeight _ _ _ ha)
      exact inner m acc h
  exact main group [] (by simp [keysOf])

theorem lookupW_updAdd (l : WeightMap) (k : String) (d : ℚ) (t : String) :
    lookupW t (updAdd l k d) =
      if t = k then (lookupW t l).map (fun v => v + d) else lookupW t l := by
  induction l with
  | nil => by_cases h : t = k <;> simp [updAdd, lookupW, h]
  | cons p rest ih =>
    obtain ⟨a, v⟩ := p
    by_cases hak : a = k
    · subst hak
      by_cases hta : t = a
      · subst hta; simp [updAdd, lookupW]
      · have hat : a ≠ t := fun hh => hta hh.symm
        simp [updAdd, lookupW, hta, hat]
    · by_cases hat : a = t
      · have htk : ¬t = k := fun hh => hak (hat.trans hh)
        simp [updAdd, lookupW, hak, hat, htk]
      · simp [updAdd, lookupW, hak, hat, ih]

theorem sumVals_updAdd (l : WeightMap) (k : String) (d : ℚ)
    (h : k ∈ keysOf l) : sumVals (updAdd l k d) = sumVals l + d := by
  induction l with
  | nil => simp [keysOf] at h
  | cons p rest ih =>
    obtain ⟨a, v⟩ := p
    by_cases hak : a = k
    · simp [updAdd, hak, sumVals_cons]; ring
    · have hmem : k ∈ keysOf rest := by
        rcases (by simpa [keysOf] using h : k = a ∨ k ∈ keysOf rest) with h1 | h2
        · exact absurd h1.symm hak
        · exact h2
      simp [updAdd, hak, sumVals_cons, ih hmem]; ring

theorem keysOf_updAdd (l : WeightMap) (k : String) (d : ℚ) :
    keysOf (updAdd l k d) = keysOf l := by
  induction l with
  | nil => simp [updAdd]
  | cons p rest ih =>
    obtain ⟨a, v⟩ := p
    by_cases hak : a = k <;> simp [updAdd, hak, keysOf] at ih ⊢ <;> exact ih

theorem sumVals_insertKey (x : String × ℚ) (l : WeightMap) :
    sumVals (insertKey x l) = x.2 + sumVals l := by
  induction l with
  | nil => simp [insertKey, sumVals]
  | cons y ys ih =>
    by_cases h : strLe x.1 y.1 <;> simp [insertKey, h, sumVals_cons, ih] <;> ring

theorem sumVals_sortKey (l : WeightMap) : sumVals (sortKey l) = sumVals l := by
  induction l with
  | nil => rfl
  | cons x xs ih => simp [sortKey, sumVals_insertKey, sumVals_cons, ih]

theorem mem_keysOf_insertKey (x : String × ℚ) (l : WeightMap) (t : String) :
    t ∈ keysOf (insertKey x l) ↔ t = x.1 ∨ t ∈ keysOf l := by
  induction l with
  | nil => simp [insertKey, keysOf]
  | cons y ys ih =>
    by_cases h : strLe x.1 y.1
    · simp [insertKey, h, keysOf]
    · simp [insertKey, h, keysOf] at ih ⊢
      rw [ih]; tauto

theorem lookupW_insertKey (x : String × ℚ) (l : WeightMap) (t : String)
    (hx : x.1 ∉ keysOf l) :
    lookupW t (insertKey x l) = if t = x.1 then some x.2 else lookupW t l := by
  obtain ⟨b, w⟩ := x
  induction l with
  | nil =>
    by_cases h : t = b
    · subst h; simp [insertKey, lookupW]
    · have h' : b ≠ t := fun hh => h hh.symm
      simp [insertKey, lookupW, h, h']
  | cons y ys ih =>
    obtain ⟨a, v⟩ := y
    have hx2 : b ∉ a :: keysOf ys := hx
    have hba : b ≠ a := fun hh => hx2 (hh ▸ List.mem_cons_self a (keysOf ys))
    have hx' : b ∉ keysOf ys := fun hh => hx2 (List.mem_cons_of_mem a hh)
    by_cases h : strLe b a
    · by_cases ht : t = b
      · subst ht; simp [insertKey, h, lookupW]
      · have h' : b ≠ t := fun hh => ht hh.symm
        simp [insertKey, h, lookupW, ht, h']
    · by_cases hat : a = t
      · subst hat
        have htb : ¬a = b := fun hh => hba hh.symm
        simp [insertKey, h, lookupW, htb]
      · simp [insertKey, h, lookupW, hat, ih hx']

theorem mem_keysOf_sortKey (l : WeightMap) (t : String) :
    t ∈ keysOf (sortKey l) ↔ t ∈ keysOf l := by
  induction l with
  | nil => simp [sortKey]
  | cons x xs ih =>
    show t ∈ keysOf (insertKey x (sortKey xs)) ↔ t ∈ x.1 :: keysOf xs
    rw [mem_keysOf_insertKey]
    simp [ih]

theorem nodup_cons_key (x : String × ℚ) (xs : WeightMap)
    (h : (keysOf (x :: xs)).Nodup) :
    x.1 ∉ keysOf xs ∧ (keysOf xs).Nodup := by
  simpa [keysOf] using h

theorem lookupW_sortKey (l : WeightMap) (t : String)
    (h : (keysOf l).Nodup) : lookupW t (sortKey l) = lookupW t l := by
  induction l with
  | nil => rfl
  | cons x xs ih =>
    obtain ⟨h1, h2⟩ := nodup_cons_key x xs h
    have hx : x.1 ∉ keysOf (sortKey xs) := by
      rw [mem_keysOf_sortKey]; exact h1
    rw [sortKey, lookupW_insertKey x (sortKey xs) t hx]
    by_cases ht : t = x.1
    · subst ht
      obtain ⟨a, v⟩ := x
      simp [lookupW]
    · obtain ⟨a, v⟩ := x
      have : a ≠ t := fun hh => ht hh.symm
      simp [lookupW, this, ht, ih h2]

/-! ### Stable descending sort and the first maximum -/

/-- The first entry of a weight map attaining the maximal value: the entry
that a stable descending sort puts first (`sorted_techs[0]`).  On a tie
the earlier entry wins. -/
def firstMax : WeightMap → Option (String × ℚ)
  | [] => none
  | x :: xs =>
    match firstMax xs with
    | none => some x
    | some m => some (if m.2 ≤ x.2 then x else m)

theorem insertDesc_ne_nil (x : String × ℚ) (l : WeightMap) :
    insertDesc x l ≠ [] := by
  cases l with
  | nil => simp [insertDesc]
  | cons y ys =>
    by_cases h : y.2 ≤ x.2 <;> simp [insertDesc, h]

theorem sortDesc_ne_nil (l : WeightMap) (h : l ≠ []) : sortDesc l ≠ [] := by
  cases l with
  | nil => exact absurd rfl h
  | cons x xs => exact insertDesc_ne_nil x (sortDesc xs)

theorem mem_insertDesc (c x : String × ℚ) (l : WeightMap) :
    c ∈ insertDesc x l ↔ c = x ∨ c ∈ l := by
  induction l with
  | nil => simp [insertDesc]
  | cons y ys ih =>
    by_cases h : y.2 ≤ x.2
    · simp [insertDesc, h]
    · simp [insertDesc, h, ih]
      tauto

theorem mem_of_mem_sortDesc (c : String × ℚ) (l : WeightMap)
    (h : c ∈ sortDesc l) : c ∈ l := by
  induction l with
  | nil => simpa [sortDesc] using h
  | cons x xs ih =>
    rcases (mem_insertDesc c x (sortDesc xs)).1 h with h1 | h2
    · simp [h1]
    · exact List.mem_cons_of_mem x (ih h2)

theorem head?_insertDesc (x : String × ℚ) (l : WeightMap) :
    (insertDesc x l).head? =
      some (match l.head? with
            | none => x
            | some y => if y.2 ≤ x.2 then x else y) := by
  cases l with
  | nil => rfl
  | cons y ys =>
    by_cases h : y.2 ≤ x.2 <;> simp [insertDesc, h]

theorem head?_sortDesc (l : WeightMap) : (sortDesc l).head? = firstMax l := by
  induction l with
  | nil => rfl
  | cons x xs ih =>
    show (insertDesc x (sortDesc xs)).head? = firstMax (x :: xs)
    rw [head?_insertDesc, ih]
    cases hfm : firstMax xs <;> simp [firstMax, hfm]

theorem firstMax_eq_none (l : WeightMap) : firstMax l = none ↔ l = [] := by
  cases l with
  | nil => simp [firstMax]
  | cons x xs =>
    cases hfm : firstMax xs <;> simp [firstMax, hfm]

theorem firstMax_le (l : WeightMap) (m : String × ℚ)
    (h : firstMax l = some m) : ∀ p ∈ l, p.2 ≤ m.2 := by
  induction l generalizing m with
  | nil => simp [firstMax] at h
  | cons x xs ih =>
    cases hfm : firstMax xs with
    | none =>
      have hx : m = x := by simp [firstMax, hfm] at h; exact h.symm
      have hnil : xs = [] := (firstMax_eq_none xs).1 hfm
      subst hx hnil
      simp
    | some m' =>
      rw [firstMax, hfm] at h
      by_cases hle : m'.2 ≤ x.2
      · have hx : m = x := by simp [hle] at h; exact h.symm
        subst hx
        intro p hp
        rcases List.mem_cons.1 hp with h1 | h2
        · simp [h1]
        · exact le_trans (ih m' hfm p h2) hle
      · have hx : m = m' := by simp [hle] at h; exact h.symm
        subst hx
        intro p hp
        rcases List.mem_cons.1 hp with h1 | h2
        · exact h1 ▸ le_of_not_le hle
        · exact ih m hfm p h2

theorem firstMax_isFirstMax (l : WeightMap) (c : String × ℚ)
    (h : firstMax l = some c) :
    ∃ l₁ l₂, l = l₁ ++ c :: l₂ ∧
      (∀ p ∈ l₁, p.2 < c.2) ∧ (∀ p ∈ l₂, p.2 ≤ c.2) := by
  induction l generalizing c with
  | nil => simp [firstMax] at h
  | cons x xs ih =>
    cases hfm : firstMax xs with
    | none =>
      have hx : c = x := by simp [firstMax, hfm] at h; exact h.symm
      have hnil : xs = [] := (firstMax_eq_none xs).1 hfm
      subst hx hnil
      exact ⟨[], [], by simp⟩
    | some m =>
      rw [firstMax, hfm] at h
      by_cases hle : m.2 ≤ x.2
      · have hx : c = x := by simp [hle] at h; exact h.symm
        subst hx
        refine ⟨[], xs, by simp, by simp, ?_⟩
        intro p hp
        exact le_trans (firstMax_le xs m hfm p hp) hle
      · have hx : c = m := by simp [hle] at h; exact h.symm
        subst hx
        obtain ⟨l₁, l₂, heq, hlt, hle2⟩ := ih c hfm
        refine ⟨x :: l₁, l₂, by simp [heq], ?_, hle2⟩
        intro p hp
        rcases List.mem_cons.1 hp with h1 | h2
        · exact h1 ▸ lt_of_not_le hle
        · exact hlt p h2

/-! ### Key bookkeeping for the consolidation stages -/

theorem keysOf_mapSnd (l : WeightMap) (f : String × ℚ → ℚ) :
    keysOf (l.map (fun p => (p.1, f p))) = keysOf l := by
  induction l with
  | nil => rfl
  | cons p rest ih =>
    simp only [keysOf, List.map_cons] at ih ⊢
    rw [ih]

theorem keysOf_percentagesOf (group : List WeightMap) :
    keysOf (percentagesOf group) = keysOf (technologyTotals group) :=
  keysOf_mapSnd _ _

theorem keysOf_roundedOf (group : List WeightMap) :
    keysOf (roundedOf group) = keysOf (technologyTotals group) := by
  rw [roundedOf.eq_def]
  rw [keysOf_mapSnd]
  exact keysOf_percentagesOf group

theorem keysOf_decimalDiffsOf (group : List WeightMap) :
    keysOf (decimalDiffsOf group) = keysOf (technologyTotals group) := by
  rw [decimalDiffsOf.eq_def]
  rw [keysOf_mapSnd]
  exact keysOf_percentagesOf group

theorem nodup_keys_roundedOf (group : List WeightMap) :
    (keysOf (roundedOf group)).Nodup := by
  rw [keysOf_roundedOf]
  exact nodup_keys_technologyTotals group

theorem technologyTotals_ne_nil (group : List WeightMap)
    (h : 0 < sumVals (technologyTotals group)) :
    technologyTotals group ≠ [] := by
  intro hnil
  rw [hnil, sumVals_nil] at h
  exact lt_irrefl 0 h

theorem decimalDiffsOf_ne_nil (group : List WeightMap)
    (h : technologyTotals group ≠ []) : decimalDiffsOf group ≠ [] := by
  intro hnil
  apply h
  have h1 : percentagesOf group = [] := by
    rw [decimalDiffsOf.eq_def] at hnil
    exact List.map_eq_nil_iff.1 hnil
  rw [percentagesOf.eq_def] at h1
  exact List.map_eq_nil_iff.1 h1

/-- Under a positive total the weekly consolidator does not raise and
returns exactly what the monthly one returns. -/
theorem weekly_eq_monthly (group : List WeightMap)
    (h : 0 < sumVals (technologyTotals group)) :
    consolidate_technologies_weekly group =
      some (consolidate_technologies_monthly group) := by
  have htz : ¬sumVals (technologyTotals group) = 0 := h.ne'
  rw [consolidate_technologies_weekly, consolidate_technologies_monthly]
  simp only [if_neg htz, if_neg (fun hc : _ ∧ _ => htz hc.2)]
  by_cases hcs : sumVals (roundedOf group) = 100
  · simp only [if_pos hcs]
  · simp only [if_neg hcs]
    cases hsd : sortDesc (decimalDiffsOf group) with
    | nil =>
      exact absurd hsd
        (sortDesc_ne_nil _ (decimalDiffsOf_ne_nil _ (technologyTotals_ne_nil _ h)))
    | cons c rest => rfl

/-- Under a positive total the monthly consolidator reduces to the
residual-adjustment expression (when the rounded sum misses 100). -/
theorem monthly_adjust_eq (group : List WeightMap)
    (h : 0 < sumVals (technologyTotals group))
    (hcs : sumVals (roundedOf group) ≠ 100)
    (c : String × ℚ) (rest : WeightMap)
    (hsd : sortDesc (decimalDiffsOf group) = c :: rest) :
    consolidate_technologies_monthly group =
      sortKey (updAdd (roundedOf group) c.1 (100 - sumVals (roundedOf group))) := by
  have htz : ¬sumVals (technologyTotals group) = 0 := h.ne'
  rw [consolidate_technologies_monthly]
  simp only [if_neg htz, if_neg hcs, hsd]

theorem mem_keysOf_of_mem (p : String × ℚ) (l : WeightMap) (h : p ∈ l) :
    p.1 ∈ keysOf l := List.mem_map_of_mem Prod.fst h

/-- The chosen technology (`sorted_techs[0]`) is a key of the rounded map. -/
theorem chosen_mem_rounded (group : List WeightMap)
    (c : String × ℚ) (rest : WeightMap)
    (hsd : sortDesc (decimalDiffsOf group) = c :: rest) :
    c.1 ∈ keysOf (roundedOf group) := by
  have hmem : c ∈ sortDesc (decimalDiffsOf group) := by
    rw [hsd]; exact List.mem_cons_self c rest
  have h1 : c ∈ decimalDiffsOf group := mem_of_mem_sortDesc _ _ hmem
  have h2 : c.1 ∈ keysOf (decimalDiffsOf group) := mem_keysOf_of_mem _ _ h1
  rw [keysOf_decimalDiffsOf] at h2
  rw [keysOf_roundedOf]
  exact h2

/-- Under a positive total, when the rounded percentages already sum
to 100 the monthly consolidator just returns the key-sorted dict. -/
theorem monthly_sorted_eq (group : List WeightMap)
    (h : 0 < sumVals (technologyTotals group))
    (hcs : sumVals (roundedOf group) = 100) :
    consolidate_technologies_monthly group = sortKey (roundedOf group) := by
  rw [consolidate_technologies_monthly]
  simp only [if_neg h.ne', if_pos hcs]

/-! ### C1, C2, C4: the weight-consolidation claims -/

/-- C1: for every sequence of weight maps whose total summed weight is
positive, the technology-weight consolidation of both the monthly and the
weekly summarizer returns a map whose values sum to exactly 100 (the
rational embedding is exact, hence within any tolerance, in particular
1e-9, including arbitrarily skewed inputs). -/
theorem c1_weight_sum_invariant (group : List WeightMap)
    (h : 0 < sumVals (technologyTotals group)) :
    sumVals (consolidate_technologies_monthly group) = 100 ∧
    ∃ m, consolidate_technologies_weekly group = some m ∧ sumVals m = 100 := by
  have hm : sumVals (consolidate_technologies_monthly group) = 100 := by
    by_cases hcs : sumVals (roundedOf group) = 100
    · rw [monthly_sorted_eq group h hcs, sumVals_sortKey]
      exact hcs
    · cases hsd : sortDesc (decimalDiffsOf group) with
      | nil =>
        exact absurd hsd (sortDesc_ne_nil _
          (decimalDiffsOf_ne_nil _ (technologyTotals_ne_nil _ h)))
      | cons c rest =>
        rw [monthly_adjust_eq group h hcs c rest hsd, sumVals_sortKey,
          sumVals_updAdd _ _ _ (chosen_mem_rounded group c rest hsd)]
        ring
  exact ⟨hm, consolidate_technologies_monthly group, weekly_eq_monthly group h, hm⟩

/-- Witness for C1 at the spec's adversarial input: three technologies of
equal weight (raw shares 33.333…% each). -/
theorem totals_example_eq :
    technologyTotals [[("python", 1), ("java", 1), ("go", 1)]] =
      [("python", 1), ("java", 1), ("go", 1)] := by
  simp [technologyTotals, addWeight]

theorem pos_total_example :
    0 < sumVals (technologyTotals [[("python", 1), ("java", 1), ("go", 1)]]) := by
  rw [totals_example_eq]
  norm_num [sumVals]

theorem c1_weight_sum_invariant_witness :
    0 < sumVals (technologyTotals [[("python", 1), ("java", 1), ("go", 1)]]) ∧
    sumVals (consolidate_technologies_monthly
      [[("python", 1), ("java", 1), ("go", 1)]]) = 100 :=
  ⟨pos_total_example, (c1_weight_sum_invariant [[("python", 1), ("java", 1), ("go", 1)]]
    pos_total_example).1⟩

/-- C2 (code bug in the weekly summarizer): the monthly consolidator
returns the empty map whenever the total weight is 0, but the weekly
consolidator, which lacks the `total == 0` guard, raises instead of
returning the empty map — `ZeroDivisionError` on a non-empty zero-weight
map, `IndexError` (`sorted_techs[0]` on an empty list) when every input
map is empty. -/
theorem c2_zero_weight_behaviour :
    consolidate_technologies_weekly [[("python", 0)]] = none ∧
    consolidate_technologies_weekly [([] : WeightMap)] = none ∧
    ∀ group : List WeightMap, sumVals (technologyTotals group) = 0 →
      consolidate_technologies_monthly group = [] := by
  refine ⟨?_, ?_, ?_⟩
  · norm_num [consolidate_technologies_weekly, technologyTotals, addWeight,
      sumVals]
  · norm_num [consolidate_technologies_weekly, technologyTotals, addWeight,
      sumVals, roundedOf, percentagesOf, decimalDiffsOf, sortDesc]
  · intro group h
    rw [consolidate_technologies_monthly]
    simp only [if_pos h]

/-- Witness for C2's universally quantified monthly part. -/
theorem c2_zero_weight_behaviour_witness :
    sumVals (technologyTotals ([] : List WeightMap)) = 0 ∧
    consolidate_technologies_monthly [] = [] :=
  ⟨by norm_num [technologyTotals, sumVals],
    c2_zero_weight_behaviour.2.2 []
      (by norm_num [technologyTotals, sumVals])⟩

/-- C4: whenever the rounded percentages do not sum to 100 (and the total
is positive), the whole difference `100 - sum(rounded)` is added to
exactly one technology — the first one, in the input iteration order, with
the largest fractional remainder `raw - floor(raw*100)/100` (entries
before it have strictly smaller remainders, entries after it no larger
ones) — and every other technology's rounded value is unchanged; the
weekly consolidator computes the same map. -/
theorem c4_residual_assignment (group : List WeightMap)
    (h : 0 < sumVals (technologyTotals group))
    (hcs : sumVals (roundedOf group) ≠ 100) :
    ∃ c : String × ℚ,
      (∃ l₁ l₂, decimalDiffsOf group = l₁ ++ c :: l₂ ∧
        (∀ p ∈ l₁, p.2 < c.2) ∧ (∀ p ∈ l₂, p.2 ≤ c.2)) ∧
      lookupW c.1 (consolidate_technologies_monthly group) =
        (lookupW c.1 (roundedOf group)).map
          (fun v => v + (100 - sumVals (roundedOf group))) ∧
      (∀ t, t ≠ c.1 →
        lookupW t (consolidate_technologies_monthly group) =
          lookupW t (roundedOf group)) ∧
      consolidate_technologies_weekly group =
        some (consolidate_technologies_monthly group) := by
  cases hsd : sortDesc (decimalDiffsOf group) with
  | nil =>
    exact absurd hsd (sortDesc_ne_nil _
      (decimalDiffsOf_ne_nil _ (technologyTotals_ne_nil _ h)))
  | cons c rest =>
    have hfm : firstMax (decimalDiffsOf group) = some c := by
      rw [← head?_sortDesc, hsd]; rfl
    have hdecomp := firstMax_isFirstMax _ _ hfm
    have hmeq := monthly_adjust_eq group h hcs c rest hsd
    have hnodup_upd :
        (keysOf (updAdd (roundedOf group) c.1
          (100 - sumVals (roundedOf group)))).Nodup := by
      rw [keysOf_updAdd]; exact nodup_keys_roundedOf group
    refine ⟨c, hdecomp, ?_, ?_, weekly_eq_monthly group h⟩
    · rw [hmeq, lookupW_sortKey _ _ hnodup_upd, lookupW_updAdd]
      simp
    · intro t ht
      rw [hmeq, lookupW_sortKey _ _ hnodup_upd, lookupW_updAdd]
      simp [ht]

theorem percentages_example_eq :
    percentagesOf [[("python", 1), ("java", 1), ("go", 1)]] =
      [("python", 100 / 3), ("java", 100 / 3), ("go", 100 / 3)] := by
  rw [percentagesOf, totals_example_eq]
  norm_num [sumVals]

theorem rounded_example_eq :
    roundedOf [[("python", 1), ("java", 1), ("go", 1)]] =
      [("python", 3333 / 100), ("java", 3333 / 100), ("go", 3333 / 100)] := by
  rw [roundedOf, percentages_example_eq]
  have hf : Int.fract ((10000 : ℚ) / 3) < 1 / 2 := by
    rw [Int.fract]
    norm_num
  norm_num [round2, roundHalfEven, hf]

theorem rounded_ne_100_example :
    sumVals (roundedOf [[("python", 1), ("java", 1), ("go", 1)]]) ≠ 100 := by
  rw [rounded_example_eq]
  norm_num [sumVals]

/-- Witness for C4: with three equal weights the rounded sum is 99.99,
so the 0.01 residual is assigned. -/
theorem c4_residual_assignment_witness :
    (0 < sumVals (technologyTotals [[("python", 1), ("java", 1), ("go", 1)]]) ∧
      sumVals (roundedOf [[("python", 1), ("java", 1), ("go", 1)]]) ≠ 100) ∧
    ∃ c : String × ℚ,
      (∃ l₁ l₂, decimalDiffsOf [[("python", 1), ("java", 1), ("go", 1)]] =
          l₁ ++ c :: l₂ ∧
        (∀ p ∈ l₁, p.2 < c.2) ∧ (∀ p ∈ l₂, p.2 ≤ c.2)) ∧
      lookupW c.1 (consolidate_technologies_monthly
        [[("python", 1), ("java", 1), ("go", 1)]]) =
        (lookupW c.1 (roundedOf [[("python", 1), ("java", 1), ("go", 1)]])).map
          (fun v => v + (100 - sumVals (roundedOf
            [[("python", 1), ("java", 1), ("go", 1)]]))) ∧
      (∀ t, t ≠ c.1 →
        lookupW t (consolidate_technologies_monthly
          [[("python", 1), ("java", 1), ("go", 1)]]) =
          lookupW t (roundedOf [[("python", 1), ("java", 1), ("go", 1)]])) ∧
      consolidate_technologies_weekly [[("python", 1), ("java", 1), ("go", 1)]] =
        some (consolidate_technologies_monthly
          [[("python", 1), ("java", 1), ("go", 1)]]) :=
  ⟨⟨pos_total_example, rounded_ne_100_example⟩,
    c4_residual_assignment [[("python", 1), ("java", 1), ("go", 1)]]
      pos_total_example rounded_ne_100_example⟩

/-! ### C5: the extractor's relevance filter -/

/-- `needle` is an initial segment of `hay`. -/
def prefixB : List Char → List Char → Bool
  | [], _ => true
  | _ :: _, [] => false
  | c :: cs, d :: ds => c = d && prefixB cs ds

/-- Python's `needle in hay` substring test on char lists. -/
def containsSub (n : List Char) : List Char → Bool
  | [] => n.isEmpty
  | c :: t => prefixB n (c :: t) || containsSub n t

/-- Python `str.lower()` (ASCII case mapping). -/
def pyLower (s : List Char) : List Char := s.map Char.toLower

/-- Python `str.strip()`: drop whitespace from both ends. -/
def pyStrip (s : List Char) : List Char :=
  ((s.dropWhile Char.isWhitespace).reverse.dropWhile Char.isWhitespace).reverse

/-- `CommitExtractor._is_relevant_commit` (commit_extractor.py lines
273-293): reject when the lowercased message contains one of the
`irrelevant_keywords` AS GIVEN (the code does not lowercase the keyword),
or when the stripped message is shorter than 10 characters.  The
`if irrelevant_keywords:` truthiness guard is subsumed by `any` over an
empty list being false. -/
def is_relevant_commit (commit_message : List Char)
    (irrelevant_keywords : List (List Char)) : Bool :=
  if irrelevant_keywords.any
      (fun keyword => containsSub keyword (pyLower commit_message)) then false
  else if (pyStrip commit_message).length < 10 then false
  else true

/-- The exclusion predicate exactly as claim C5 words it: short after
trimming, or the LOWERCASED keyword occurs in the lowercased message. -/
def claimedExcluded (msg : List Char) (kws : List (List Char)) : Prop :=
  (pyStrip msg).length < 10 ∨
    ∃ k ∈ kws, containsSub (pyLower k) (pyLower msg) = true

/-- C5 counterexample: the keyword `"TYPO"` (uppercase) does not match the
message `"TYPO fix for header!!"` in the code, because the code lowercases
only the message, not the keyword; the claim as stated says the commit is
excluded. -/
theorem c5_relevance_filter_counterexample :
    ¬(is_relevant_commit "TYPO fix for header!!".data ["TYPO".data] = false ↔
      claimedExcluded "TYPO fix for header!!".data ["TYPO".data]) := by
  intro h
  have hexcl : claimedExcluded "TYPO fix for header!!".data ["TYPO".data] := by
    right
    exact ⟨"TYPO".data, by decide, by decide⟩
  have hrel : is_relevant_commit "TYPO fix for header!!".data ["TYPO".data] =
      true := by decide
  rw [h.2 hexcl] at hrel
  exact Bool.false_ne_true hrel

/-- C5 amended: a commit is excluded iff the stripped message is shorter
than 10 characters, or the lowercased message contains some keyword
verbatim — the keyword is NOT lowercased, so a keyword with an uppercase
letter never matches. -/
theorem c5_relevance_filter_amended (msg : List Char)
    (kws : List (List Char)) :
    is_relevant_commit msg kws = false ↔
      ((pyStrip msg).length < 10 ∨
        ∃ k ∈ kws, containsSub k (pyLower msg) = true) := by
  by_cases h1 : kws.any (fun keyword => containsSub keyword (pyLower msg)) = true
  · simp [is_relevant_commit, h1, List.any_eq_true.1 h1]
  · by_cases h2 : (pyStrip msg).length < 10
    · simp [is_relevant_commit, h1, h2]
    · simp [is_relevant_commit, h1, h2]
      intro k hk
      have hc : containsSub k (pyLower msg) = false := by
        rcases Bool.eq_false_or_eq_true (containsSub k (pyLower msg)) with h | h
        · exact absurd (List.any_eq_true.2 ⟨k, hk, h⟩) h1
        · exact h
      simp [hc]

/-! ### C6, C10: batching in `CommitExtractor.extract_commits_by_author` -/

/-- The inner commit loop of `extract_commits_by_author`
(commit_extractor.py lines 79-117) restricted to the surviving commits of
one branch: append each commit to the current batch, yield the batch once
`len(batch) >= page_size`.  Returns (batches yielded, batch in progress). -/
def feedBatch {α : Type} (ps : ℤ) (batch : List α) :
    List α → List (List α) × List α
  | [] => ([], batch)
  | c :: cs =>
    let batch2 := batch ++ [c]
    if ps ≤ (batch2.length : ℤ) then
      let r := feedBatch ps [] cs
      (batch2 :: r.1, r.2)
    else feedBatch ps batch2 cs

/-- The outer branch loop (commit_extractor.py lines 68-117): the batch in
progress is carried from one branch into the next, not flushed. -/
def feedBranches {α : Type} (ps : ℤ) (batch : List α) :
    List (List α) → List (List α) × List α
  | [] => ([], batch)
  | br :: brs =>
    let r1 := feedBatch ps batch br
    let r2 := feedBranches ps r1.2 brs
    (r1.1 ++ r2.1, r2.2)

/-- `CommitExtractor.extract_commits_by_author` (commit_extractor.py lines
67-121), as a function from the per-branch surviving commits to the list
of yielded batches: after all branches, a non-empty leftover batch is
yielded last (`if batch: yield batch`). -/
def extract_commits_by_author {α : Type} (branches : List (List α))
    (ps : ℤ) : List (List α) :=
  match feedBranches ps [] branches with
  | (out, []) => out
  | (out, b) => out ++ [b]

/-- The same batching applied to the flat sequence of surviving commits
(all branches concatenated). -/
def extract_batches {α : Type} (commits : List α) (ps : ℤ) :
    List (List α) :=
  match feedBatch ps [] commits with
  | (out, []) => out
  | (out, b) => out ++ [b]

theorem feedBatch_join {α : Type} (ps : ℤ) (cs : List α) :
    ∀ batch, (feedBatch ps batch cs).1.join ++ (feedBatch ps batch cs).2 =
      batch ++ cs := by
  induction cs with
  | nil => intro batch; simp [feedBatch]
  | cons c cs ih =>
    intro batch
    by_cases hc : ps ≤ (batch.length : ℤ) + 1
    · simp [feedBatch, hc, ih []]
    · simp [feedBatch, hc, ih (batch ++ [c])]

theorem feedBatch_sizes {α : Type} (ps : ℤ) (hps : 1 ≤ ps) (cs : List α) :
    ∀ batch, (batch.length : ℤ) < ps →
      (∀ b ∈ (feedBatch ps batch cs).1, (b.length : ℤ) = ps) ∧
      ((feedBatch ps batch cs).2.length : ℤ) < ps := by
  induction cs with
  | nil =>
    intro batch h
    exact ⟨by simp [feedBatch], by simpa [feedBatch] using h⟩
  | cons c cs ih =>
    intro batch h
    by_cases hc : ps ≤ (batch.length : ℤ) + 1
    · have hlen : ((batch ++ [c]).length : ℤ) = ps := by
        simp
        omega
      have h0 : ((([] : List α)).length : ℤ) < ps := by simp; omega
      obtain ⟨h1, h2⟩ := ih [] h0
      constructor
      · intro b hb
        simp [feedBatch, hc] at hb
        rcases hb with rfl | hb2
        · exact hlen
        · exact h1 b hb2
      · simpa [feedBatch, hc] using h2
    · have hlt : ((batch ++ [c]).length : ℤ) < ps := by
        simp
        omega
      obtain ⟨h1, h2⟩ := ih (batch ++ [c]) hlt
      exact ⟨by simpa [feedBatch, hc] using h1, by simpa [feedBatch, hc] using h2⟩

theorem feedBatch_nonempty {α : Type} (ps : ℤ) (cs : List α) :
    ∀ batch, ∀ b ∈ (feedBatch ps batch cs).1, b ≠ [] := by
  induction cs with
  | nil => intro batch b hb; simp [feedBatch] at hb
  | cons c cs ih =>
    intro batch b hb
    by_cases hc : ps ≤ (batch.length : ℤ) + 1
    · simp [feedBatch, hc] at hb
      rcases hb with rfl | hb2
      · simp
      · exact ih [] b hb2
    · simp [feedBatch, hc] at hb
      exact ih (batch ++ [c]) b hb

theorem feedBatch_append {α : Type} (ps : ℤ) (l₁ l₂ : List α) :
    ∀ batch, feedBatch ps batch (l₁ ++ l₂) =
      ((feedBatch ps batch l₁).1 ++
        (feedBatch ps (feedBatch ps batch l₁).2 l₂).1,
       (feedBatch ps (feedBatch ps batch l₁).2 l₂).2) := by
  induction l₁ with
  | nil => intro batch; simp [feedBatch]
  | cons c cs ih =>
    intro batch
    by_cases hc : ps ≤ (batch.length : ℤ) + 1
    · simp [feedBatch, hc, ih []]
    · simp [feedBatch, hc, ih (batch ++ [c])]

theorem feedBranches_eq {α : Type} (ps : ℤ) (brs : List (List α)) :
    ∀ batch, feedBranches ps batch brs = feedBatch ps batch brs.join := by
  induction brs with
  | nil => intro batch; simp [feedBranches, feedBatch]
  | cons br brs ih =>
    intro batch
    simp [feedBranches, feedBatch_append, ih]

/-- The carried batch makes multi-branch extraction equal to batching the
concatenated commit sequence. -/
theorem extract_eq_batches_join {α : Type} (branches : List (List α))
    (ps : ℤ) :
    extract_commits_by_author branches ps =
      extract_batches branches.join ps := by
  rw [extract_commits_by_author, extract_batches, feedBranches_eq]

theorem extract_batches_nonempty {α : Type} (commits : List α) (ps : ℤ) :
    ∀ b ∈ extract_batches commits ps, b ≠ [] := by
  intro b hb
  rcases hfb : feedBatch ps [] commits with ⟨out, rest⟩
  cases rest with
  | nil =>
    have hbs : extract_batches commits ps = out := by
      simp [extract_batches, hfb]
    rw [hbs] at hb
    exact feedBatch_nonempty ps commits [] b (by rw [hfb]; exact hb)
  | cons x xs =>
    have hbs : extract_batches commits ps = out ++ [x :: xs] := by
      simp [extract_batches, hfb]
    rw [hbs] at hb
    rcases List.mem_append.1 hb with h | h
    · exact feedBatch_nonempty ps commits [] b (by rw [hfb]; exact h)
    · have hx : b = x :: xs := by simpa using h
      subst hx; simp

theorem extract_batches_spec (α : Type) (commits : List α) (ps : ℤ)
    (hps : 1 ≤ ps) :
    (extract_batches commits ps).join = commits ∧
    (∀ b ∈ (extract_batches commits ps).dropLast, (b.length : ℤ) = ps) ∧
    ∀ b ∈ extract_batches commits ps, b ≠ [] ∧ (b.length : ℤ) ≤ ps := by
  have h0 : ((([] : List α)).length : ℤ) < ps := by simp; omega
  obtain ⟨hsz, hlast⟩ := feedBatch_sizes ps hps commits [] h0
  have hjoin := feedBatch_join ps commits []
  have hne := feedBatch_nonempty ps commits []
  rcases hfb : feedBatch ps [] commits with ⟨out, rest⟩
  rw [hfb] at hsz hlast hjoin hne
  cases rest with
  | nil =>
    have hbs : extract_batches commits ps = out := by
      simp [extract_batches, hfb]
    rw [hbs]
    refine ⟨by simpa using hjoin, ?_, ?_⟩
    · intro b hb
      exact hsz b ((List.dropLast_sublist out).subset hb)
    · intro b hb
      exact ⟨hne b hb, le_of_eq (hsz b hb)⟩
  | cons x xs =>
    have hbs : extract_batches commits ps = out ++ [x :: xs] := by
      simp [extract_batches, hfb]
    rw [hbs]
    refine ⟨?_, ?_, ?_⟩
    · simpa using hjoin
    · intro b hb
      have hdl : (out ++ [x :: xs]).dropLast = out := by simp
      rw [hdl] at hb
      exact hsz b hb
    · intro b hb
      rcases List.mem_append.1 hb with h | h
      · exact ⟨hne b h, le_of_eq (hsz b h)⟩
      · have hx : b = x :: xs := by simpa using h
        subst hx
        exact ⟨by simp, le_of_lt hlast⟩

/-- C6: with a positive page size, the surviving commits are yielded in
traversal order (the batches concatenate back to the traversal sequence)
in batches of exactly `page_size`, with one final batch holding the
remainder when non-empty; in particular 250 qualifying commits with
`page_size = 100` give exactly the batch sizes 100, 100, 50. -/
theorem c6_pagination :
    (∀ (α : Type) (branches : List (List α)) (ps : ℤ), 1 ≤ ps →
      (extract_commits_by_author branches ps).join = branches.join ∧
      (∀ b ∈ (extract_commits_by_author branches ps).dropLast,
        (b.length : ℤ) = ps) ∧
      ∀ b ∈ extract_commits_by_author branches ps,
        b ≠ [] ∧ (b.length : ℤ) ≤ ps) ∧
    (extract_commits_by_author [List.range 250] (100 : ℤ)).map List.length =
      [100, 100, 50] := by
  constructor
  · intro α branches ps hps
    rw [extract_eq_batches_join]
    exact extract_batches_spec α branches.join ps hps
  · set_option maxRecDepth 40000 in decide

/-- Witness for C6's universally quantified part. -/
theorem c6_pagination_witness :
    ((1 : ℤ) ≤ 2) ∧
      (extract_commits_by_author [[0, 1, 2]] (2 : ℤ)).join = [[0, 1, 2]].join :=
  ⟨by norm_num, (c6_pagination.1 ℕ [[0, 1, 2]] 2 (by norm_num)).1⟩

/-- C10: every batch yielded by `extract_commits_by_author` is non-empty,
for every input including zero or negative page sizes; and a batch can
span two branches, since the partial batch is carried across branch
boundaries (witnessed by two one-commit branches with page size 2 giving
the single batch `[0, 1]`). -/
theorem c10_batches_nonempty :
    (∀ (α : Type) (branches : List (List α)) (ps : ℤ),
      ∀ b ∈ extract_commits_by_author branches ps, b ≠ []) ∧
    extract_commits_by_author [[0], [1]] (2 : ℤ) = [[0, 1]] := by
  constructor
  · intro α branches ps b hb
    rw [extract_eq_batches_join] at hb
    exact extract_batches_nonempty branches.join ps b hb
  · decide

/-- Witness for C10's universally quantified part. -/
theorem c10_batches_nonempty_witness :
    ([5] ∈ extract_commits_by_author [[5]] (3 : ℤ)) ∧ ([5] : List ℕ) ≠ [] :=
  ⟨by decide, c10_batches_nonempty.1 ℕ [[5]] 3 [5] (by decide)⟩

/-! ### Calendar model (Python `datetime.date`, proleptic Gregorian) -/

/-- A calendar date as held by Python's `datetime.date`. -/
structure Date where
  year : ℕ
  month : ℕ
  day : ℕ
deriving DecidableEq, Repr

/-- Gregorian leap-year rule. -/
def isLeap (y : ℕ) : Bool := (y % 4 == 0 && y % 100 != 0) || y % 400 == 0

/-- Number of days of month `m` of year `y`. -/
def daysInMonth (y m : ℕ) : ℕ :=
  match m with
  | 1 => 31 | 2 => if isLeap y then 29 else 28 | 3 => 31 | 4 => 30
  | 5 => 31 | 6 => 30 | 7 => 31 | 8 => 31 | 9 => 30 | 10 => 31
  | 11 => 30 | 12 => 31
  | _ => 0

/-- The dates representable by Python's `datetime.date` (year ≥ 1). -/
def Date.Valid (d : Date) : Prop :=
  1 ≤ d.year ∧ 1 ≤ d.month ∧ d.month ≤ 12 ∧ 1 ≤ d.day ∧
    d.day ≤ daysInMonth d.year d.month

/-- The calendar successor (`d + timedelta(days=1)`). -/
def nextDay (d : Date) : Date :=
  if d.day < daysInMonth d.year d.month then ⟨d.year, d.month, d.day + 1⟩
  else if d.month < 12 then ⟨d.year, d.month + 1, 1⟩
  else ⟨d.year + 1, 1, 1⟩

/-- The calendar predecessor (`d - timedelta(days=1)`). -/
def prevDay (d : Date) : Date :=
  if 1 < d.day then ⟨d.year, d.month, d.day - 1⟩
  else if 1 < d.month then
    ⟨d.year, d.month - 1, daysInMonth d.year (d.month - 1)⟩
  else ⟨d.year - 1, 12, 31⟩

/-- `d + timedelta(days=n)`. -/
def addDays : ℕ → Date → Date
  | 0, d => d
  | n + 1, d => nextDay (addDays n d)

/-- `d - timedelta(days=n)`. -/
def subDays : ℕ → Date → Date
  | 0, d => d
  | n + 1, d => prevDay (subDays n d)

/-- Cumulative days before month `m` in a non-leap year
(CPython's `_DAYS_BEFORE_MONTH`). -/
def daysBeforeMonthAux (m : ℕ) : ℕ :=
  match m with
  | 1 => 0 | 2 => 31 | 3 => 59 | 4 => 90 | 5 => 120 | 6 => 151 | 7 => 181
  | 8 => 212 | 9 => 243 | 10 => 273 | 11 => 304 | 12 => 334
  | _ => 0

/-- Days before month `m` of year `y` (CPython `_days_before_month`). -/
def daysBeforeMonth (y m : ℕ) : ℕ :=
  daysBeforeMonthAux m + (if 2 < m ∧ isLeap y = true then 1 else 0)

/-- Days before January 1 of year `y` (CPython `_days_before_year`). -/
def daysBeforeYear (y : ℕ) : ℤ :=
  365 * ((y : ℤ) - 1) + ((y - 1) / 4 : ℕ) - ((y - 1) / 100 : ℕ) +
    ((y - 1) / 400 : ℕ)

/-- Python `date.toordinal()`: day 1 is 0001-01-01. -/
def toOrdinal (d : Date) : ℤ :=
  daysBeforeYear d.year + daysBeforeMonth d.year d.month + d.day

/-- Python `date.weekday()`: Monday is 0.  `(toordinal + 6) % 7`,
written with `toordinal - 1` which is congruent mod 7. -/
def weekday (d : Date) : ℕ := ((toOrdinal d - 1) % 7).toNat

theorem isLeap_iff (y : ℕ) :
    isLeap y = true ↔ ((y % 4 = 0 ∧ y % 100 ≠ 0) ∨ y % 400 = 0) := by
  simp [isLeap]

theorem daysBeforeYear_succ (y : ℕ) (hy : 1 ≤ y) :
    daysBeforeYear (y + 1) =
      daysBeforeYear y + 365 + (if isLeap y = true then 1 else 0) := by
  rw [daysBeforeYear, daysBeforeYear]
  cases hl : isLeap y with
  | false =>
    have hmod : ¬((y % 4 = 0 ∧ y % 100 ≠ 0) ∨ y % 400 = 0) := by
      rw [← isLeap_iff, hl]; simp
    push_neg at hmod
    obtain ⟨hm1, hm2⟩ := hmod
    rw [if_neg (by simp : ¬false = true)]
    simp only [Nat.add_sub_cancel]
    by_cases h4 : y % 4 = 0
    · have h100 : y % 100 = 0 := hm1 h4
      omega
    · omega
  | true =>
    have hmod : (y % 4 = 0 ∧ y % 100 ≠ 0) ∨ y % 400 = 0 := (isLeap_iff y).1 hl
    rw [if_pos (rfl : true = true)]
    simp only [Nat.add_sub_cancel]
    rcases hmod with ⟨h4, h100⟩ | h400
    · omega
    · omega

theorem daysBeforeMonth_succ (y m : ℕ) (h1 : 1 ≤ m) (h2 : m ≤ 11) :
    daysBeforeMonth y (m + 1) = daysBeforeMonth y m + daysInMonth y m := by
  interval_cases m <;> cases hl : isLeap y <;>
    simp [daysBeforeMonth, daysBeforeMonthAux, daysInMonth, hl]

theorem daysInMonth_pos (y m : ℕ) (h1 : 1 ≤ m) (h2 : m ≤ 12) :
    1 ≤ daysInMonth y m := by
  interval_cases m <;> cases hl : isLeap y <;> simp [daysInMonth, hl]

theorem toOrdinal_nextDay (d : Date) (hv : d.Valid) :
    toOrdinal (nextDay d) = toOrdinal d + 1 := by
  obtain ⟨hy, hm1, hm2, hd1, hd2⟩ := hv
  rw [nextDay]
  by_cases h1 : d.day < daysInMonth d.year d.month
  · simp only [if_pos h1, toOrdinal]
    push_cast
    ring
  · rw [if_neg h1]
    have hde : d.day = daysInMonth d.year d.month := le_antisymm hd2 (not_lt.1 h1)
    by_cases h2 : d.month < 12
    · simp only [if_pos h2, toOrdinal]
      rw [daysBeforeMonth_succ d.year d.month hm1 (by omega), hde]
      push_cast
      ring
    · rw [if_neg h2]
      have hm12 : d.month = 12 := by omega
      have hd31 : d.day = 31 := by
        rw [hde, hm12]
        rfl
      simp only [toOrdinal]
      rw [daysBeforeYear_succ d.year hy, hm12, hd31]
      cases hl : isLeap d.year <;>
        simp [daysBeforeMonth, daysBeforeMonthAux, hl] <;> push_cast <;> ring

theorem nextDay_valid (d : Date) (hv : d.Valid) : (nextDay d).Valid := by
  obtain ⟨hy, hm1, hm2, hd1, hd2⟩ := hv
  rw [nextDay]
  by_cases h1 : d.day < daysInMonth d.year d.month
  · rw [if_pos h1]
    simp only [Date.Valid]
    exact ⟨hy, hm1, hm2, by omega, by omega⟩
  · rw [if_neg h1]
    by_cases h2 : d.month < 12
    · rw [if_pos h2]
      simp only [Date.Valid]
      exact ⟨hy, by omega, by omega, le_refl 1,
        daysInMonth_pos d.year (d.month + 1) (by omega) (by omega)⟩
    · rw [if_neg h2]
      simp only [Date.Valid]
      exact ⟨by omega, by norm_num, by norm_num, by norm_num,
        by norm_num [daysInMonth]⟩

theorem prevDay_spec (d : Date) (hv : d.Valid) (hne : d ≠ ⟨1, 1, 1⟩) :
    (prevDay d).Valid ∧ toOrdinal (prevDay d) = toOrdinal d - 1 := by
  obtain ⟨hy, hm1, hm2, hd1, hd2⟩ := hv
  rw [prevDay]
  by_cases h1 : 1 < d.day
  · rw [if_pos h1]
    refine ⟨?_, ?_⟩
    · simp only [Date.Valid]
      exact ⟨hy, hm1, hm2, by omega, by omega⟩
    · simp only [toOrdinal]
      omega
  · rw [if_neg h1]
    have hd1' : d.day = 1 := by omega
    by_cases h2 : 1 < d.month
    · rw [if_pos h2]
      have hmb := daysBeforeMonth_succ d.year (d.month - 1) (by omega) (by omega)
      have hm' : d.month - 1 + 1 = d.month := by omega
      rw [hm'] at hmb
      refine ⟨?_, ?_⟩
      · simp only [Date.Valid]
        exact ⟨hy, by omega, by omega,
          daysInMonth_pos _ _ (by omega) (by omega), le_refl _⟩
      · simp only [toOrdinal]
        rw [hmb]
        omega
    · rw [if_neg h2]
      have hm' : d.month = 1 := by omega
      have hy2 : 2 ≤ d.year := by
        by_contra hcon
        apply hne
        cases d
        simp_all
        omega
      refine ⟨?_, ?_⟩
      · simp only [Date.Valid]
        exact ⟨by omega, by norm_num, by norm_num, by norm_num,
          by norm_num [daysInMonth]⟩
      simp only [toOrdinal]
      have hds := daysBeforeYear_succ (d.year - 1) (by omega)
      have hyy : d.year - 1 + 1 = d.year := by omega
      rw [hyy] at hds
      rw [hds, hm', hd1']
      cases hl : isLeap (d.year - 1) <;>
        simp [daysBeforeMonth, daysBeforeMonthAux, hl] <;> omega

theorem addDays_spec (n : ℕ) (d : Date) (hv : d.Valid) :
    (addDays n d).Valid ∧ toOrdinal (addDays n d) = toOrdinal d + n := by
  induction n with
  | zero => exact ⟨hv, by simp [addDays]⟩
  | succ n ih =>
    obtain ⟨hv', hord⟩ := ih
    refine ⟨nextDay_valid _ hv', ?_⟩
    show toOrdinal (nextDay (addDays n d)) = _
    rw [toOrdinal_nextDay _ hv', hord]
    push_cast
    ring

theorem toOrdinal_pos (d : Date) (hv : d.Valid) : 1 ≤ toOrdinal d := by
  obtain ⟨hy, hm1, hm2, hd1, hd2⟩ := hv
  rw [toOrdinal, daysBeforeYear]
  omega

theorem toOrdinal_111 : toOrdinal ⟨1, 1, 1⟩ = 1 := by decide

theorem ne_111 (d : Date) (h : 1 < toOrdinal d) : d ≠ ⟨1, 1, 1⟩ := by
  intro he
  rw [he, toOrdinal_111] at h
  exact lt_irrefl 1 h

theorem subDays_spec (n : ℕ) (d : Date) (hv : d.Valid)
    (h : (n : ℤ) < toOrdinal d) :
    (subDays n d).Valid ∧ toOrdinal (subDays n d) = toOrdinal d - n := by
  induction n with
  | zero => exact ⟨hv, by simp [subDays]⟩
  | succ n ih =>
    have hn : (n : ℤ) < toOrdinal d := by push_cast at h ⊢; omega
    obtain ⟨hv', hord⟩ := ih hn
    have h1 : 1 < toOrdinal (subDays n d) := by
      rw [hord]
      push_cast at h
      omega
    obtain ⟨hv2, hord2⟩ := prevDay_spec _ hv' (ne_111 _ h1)
    refine ⟨hv2, ?_⟩
    show toOrdinal (prevDay (subDays n d)) = _
    rw [hord2, hord]
    push_cast
    ring

/-- The weekly grouping key
`commit_date - timedelta(days=commit_date.weekday())`
(weekly_summarizer.py line 48): the Monday on or before the date. -/
def weekKey (d : Date) : Date := subDays (weekday d) d

theorem weekday_lt_ordinal (d : Date) (hv : d.Valid) :
    (weekday d : ℤ) < toOrdinal d := by
  have := toOrdinal_pos d hv
  rw [weekday]
  omega

theorem weekKey_spec (d : Date) (hv : d.Valid) :
    (weekKey d).Valid ∧ weekday (weekKey d) = 0 ∧
      toOrdinal (weekKey d) = toOrdinal d - weekday d := by
  obtain ⟨hv2, hord⟩ := subDays_spec (weekday d) d hv (weekday_lt_ordinal d hv)
  refine ⟨hv2, ?_, hord⟩
  have hpos := toOrdinal_pos d hv
  have hcast : toOrdinal (weekKey d) =
      toOrdinal d - ((toOrdinal d - 1) % 7).toNat := by
    rw [weekKey, hord, weekday]
  rw [weekday, hcast]
  omega

/-- `MonthlySummarizer._last_day_of_month` (monthly_summarizer.py lines
78-89): `next_month = (d.replace(day=28) + timedelta(days=4)).replace(day=1);
return next_month - timedelta(days=1)`. -/
def last_day_of_month (d : Date) : Date :=
  let t := addDays 4 ⟨d.year, d.month, 28⟩
  let next_month : Date := ⟨t.year, t.month, 1⟩
  prevDay next_month

theorem addDays_four (d : Date) :
    addDays 4 d = nextDay (nextDay (nextDay (nextDay d))) := rfl

theorem last_day_of_month_correct (y m dd : ℕ) (hy : 1 ≤ y) (hm1 : 1 ≤ m)
    (hm2 : m ≤ 12) :
    last_day_of_month ⟨y, m, dd⟩ = ⟨y, m, daysInMonth y m⟩ := by
  cases hl : isLeap y <;> interval_cases m <;>
    simp [last_day_of_month, addDays_four, nextDay, prevDay, daysInMonth, hl]

/-! ### The three summarizers (daily → weekly → monthly) -/

/-- A commit record as produced by `extract_commits_by_author`
(commit_extractor.py lines 104-111); the ISO date string is carried as a
parsed `Date`. -/
structure CommitRec where
  hash : String
  author : String
  email : String
  date : Date
  message : String
  files : List String

/-- A daily bucket (daily_summarizer.py lines 52-59). -/
structure DailyRec where
  date : Date
  commit_count : ℕ
  technologies : WeightMap
  descriptions : String

/-- A weekly bucket (weekly_summarizer.py lines 61-69). -/
structure WeeklyRec where
  start_date : Date
  end_date : Date
  commit_count : ℕ
  technologies : WeightMap
  descriptions : String

/-- A monthly bucket (monthly_summarizer.py lines 65-74); the
`"%Y-%m"` label is carried as the (year, month) pair. -/
structure MonthlyRec where
  month : ℕ × ℕ
  start_date : Date
  end_date : Date
  commit_count : ℕ
  technologies : WeightMap
  descriptions : String

/-- `defaultdict(list)`: append `v` to the group of key `k`, creating the
group at the end on first sight (dict insertion order). -/
def groupInsert {κ α : Type} [DecidableEq κ] (k : κ) (v : α) :
    List (κ × List α) → List (κ × List α)
  | [] => [(k, [v])]
  | (k2, vs) :: rest =>
    if k2 = k then (k2, vs ++ [v]) :: rest else (k2, vs) :: groupInsert k v rest

/-- The `summaries = defaultdict(list); for item in data: summaries[key].append(item)`
grouping loop shared by all three summarizers. -/
def groupByKey {κ α : Type} [DecidableEq κ] (key : α → κ) (items : List α) :
    List (κ × List α) :=
  items.foldl (fun acc x => groupInsert (key x) x acc) []

/-- `DailySummarizer.summarize` (daily_summarizer.py lines 22-61): flatten
the batches, group the commits by calendar day, and emit one record per
day with `commit_count = len(group)`; the technology detector and the LLM
are external collaborators passed as functions. -/
def dailySummarize (detect : List String → WeightMap)
    (llm : List CommitRec → String) (batches : List (List CommitRec)) :
    List DailyRec :=
  (groupByKey (fun c => c.date) batches.join).map
    (fun g =>
      { date := g.1
        commit_count := g.2.length
        technologies := detect ((g.2.map (fun c => c.files)).join)
        descriptions := llm g.2 })

/-- Run an option-valued function over a list, propagating the first
failure (a `for` loop whose body may raise). -/
def mapOpt {α β : Type} (f : α → Option β) : List α → Option (List β)
  | [] => some []
  | x :: xs =>
    match f x, mapOpt f xs with
    | some y, some ys => some (y :: ys)
    | _, _ => none

/-- `WeeklySummarizer.summarize` (weekly_summarizer.py lines 25-71):
group the daily records by the Monday on or before their date, and for
each group consolidate the technologies (which can raise, hence `Option`),
with `end_date = week_start + 6 days` and `commit_count` the sum of the
members' counts. -/
def weeklySummarize (llm : List DailyRec → String) (data : List DailyRec) :
    Option (List WeeklyRec) :=
  mapOpt
    (fun g =>
      (consolidate_technologies_weekly (g.2.map (fun r => r.technologies))).map
        (fun techs =>
          { start_date := g.1
            end_date := addDays 6 g.1
            commit_count := (g.2.map (fun r => r.commit_count)).sum
            technologies := techs
            descriptions := llm g.2 }))
    (groupByKey (fun r => weekKey r.date) data)

/-- The monthly grouping key `start_dt.replace(day=1)`
(monthly_summarizer.py line 51). -/
def monthKey (d : Date) : Date := ⟨d.year, d.month, 1⟩

/-- `MonthlySummarizer.summarize` (monthly_summarizer.py lines 25-76):
group the weekly records by the first day of the month of their
`start_date`; `end_date` comes from `_last_day_of_month`. -/
def monthlySummarize (llm : List WeeklyRec → String)
    (data : List WeeklyRec) : List MonthlyRec :=
  (groupByKey (fun r => monthKey r.start_date) data).map
    (fun g =>
      { month := (g.1.year, g.1.month)
        start_date := g.1
        end_date := last_day_of_month g.1
        commit_count := (g.2.map (fun r => r.commit_count)).sum
        technologies := consolidate_technologies_monthly
          (g.2.map (fun r => r.technologies))
        descriptions := llm g.2 })

/-! ### Grouping lemmas -/

theorem groupInsert_sum {κ α : Type} [DecidableEq κ] (f : α → ℕ) (k : κ)
    (v : α) (g : List (κ × List α)) :
    ((groupInsert k v g).map (fun p => (p.2.map f).sum)).sum =
      ((g.map (fun p => (p.2.map f).sum)).sum) + f v := by
  induction g with
  | nil => simp [groupInsert]
  | cons p rest ih =>
    obtain ⟨k2, vs⟩ := p
    by_cases h : k2 = k
    · simp [groupInsert, h]
      ring
    · simp [groupInsert, h, ih]
      ring

theorem groupByKey_sum {κ α : Type} [DecidableEq κ] (key : α → κ)
    (f : α → ℕ) (items : List α) :
    ((groupByKey key items).map (fun p => (p.2.map f).sum)).sum =
      (items.map f).sum := by
  have main : ∀ acc : List (κ × List α),
      (((items.foldl (fun acc x => groupInsert (key x) x acc) acc)).map
        (fun p => (p.2.map f).sum)).sum =
      ((acc.map (fun p => (p.2.map f).sum)).sum) + (items.map f).sum := by
    induction items with
    | nil => intro acc; simp
    | cons x xs ih =>
      intro acc
      simp only [List.foldl_cons, List.map_cons, List.sum_cons]
      rw [ih (groupInsert (key x) x acc), groupInsert_sum]
      ring
  simpa [groupByKey] using main []

theorem groupInsert_members {κ α : Type} [DecidableEq κ] (key : α → κ)
    (k : κ) (v : α) (hk : key v = k) (g : List (κ × List α))
    (hg : ∀ p ∈ g, p.2 ≠ [] ∧ ∀ w ∈ p.2, key w = p.1) :
    ∀ p ∈ groupInsert k v g, p.2 ≠ [] ∧ ∀ w ∈ p.2, key w = p.1 := by
  induction g with
  | nil =>
    intro p hp
    simp [groupInsert] at hp
    subst hp
    exact ⟨by simp, by simpa using hk⟩
  | cons q rest ih =>
    obtain ⟨k2, vs⟩ := q
    intro p hp
    by_cases h : k2 = k
    · simp [groupInsert, h] at hp
      rcases hp with hp | hp
      · subst hp
        refine ⟨by simp, ?_⟩
        intro w hw
        rcases List.mem_append.1 hw with hw | hw
        · exact h ▸ (hg (k2, vs) (by simp)).2 w hw
        · have : w = v := by simpa using hw
          subst this
          simp [hk, h]
      · exact hg _ (List.mem_cons_of_mem _ hp)
    · simp only [groupInsert, if_neg h] at hp
      rcases List.mem_cons.1 hp with hp | hp
      · subst hp
        exact hg _ (by simp)
      · exact ih (fun q hq => hg q (List.mem_cons_of_mem _ hq)) p hp

theorem groupByKey_members {κ α : Type} [DecidableEq κ] (key : α → κ)
    (items : List α) :
    ∀ p ∈ groupByKey key items, p.2 ≠ [] ∧ ∀ w ∈ p.2, key w = p.1 := by
  have main : ∀ acc : List (κ × List α),
      (∀ p ∈ acc, p.2 ≠ [] ∧ ∀ w ∈ p.2, key w = p.1) →
      ∀ p ∈ items.foldl (fun acc x => groupInsert (key x) x acc) acc,
        p.2 ≠ [] ∧ ∀ w ∈ p.2, key w = p.1 := by
    induction items with
    | nil => intro acc hacc; simpa using hacc
    | cons x xs ih =>
      intro acc hacc
      simp only [List.foldl_cons]
      exact ih _ (groupInsert_members key (key x) x rfl acc hacc)
  exact main [] (by simp)

theorem groupInsert_sub {κ α : Type} [DecidableEq κ] (k : κ) (v : α)
    (g : List (κ × List α)) (items : List α)
    (hg : ∀ p ∈ g, ∀ w ∈ p.2, w ∈ items) (hv : v ∈ items) :
    ∀ p ∈ groupInsert k v g, ∀ w ∈ p.2, w ∈ items := by
  induction g with
  | nil =>
    intro p hp w hw
    simp [groupInsert] at hp
    subst hp
    have : w = v := by simpa using hw
    subst this
    exact hv
  | cons q rest ih =>
    obtain ⟨k2, vs⟩ := q
    intro p hp w hw
    by_cases h : k2 = k
    · simp [groupInsert, h] at hp
      rcases hp with hp | hp
      · subst hp
        rcases List.mem_append.1 hw with hw | hw
        · exact hg (k2, vs) (by simp) w hw
        · have : w = v := by simpa using hw
          subst this
          exact hv
      · exact hg _ (List.mem_cons_of_mem _ hp) w hw
    · simp only [groupInsert, if_neg h] at hp
      rcases List.mem_cons.1 hp with hp | hp
      · subst hp
        exact hg _ (by simp) w hw
      · exact ih (fun q hq => hg q (List.mem_cons_of_mem _ hq)) p hp w hw

theorem groupByKey_sub {κ α : Type} [DecidableEq κ] (key : α → κ)
    (items : List α) :
    ∀ p ∈ groupByKey key items, ∀ w ∈ p.2, w ∈ items := by
  have main : ∀ (todo : List α) (acc : List (κ × List α)),
      (∀ p ∈ acc, ∀ w ∈ p.2, w ∈ items) →
      (∀ x ∈ todo, x ∈ items) →
      ∀ p ∈ todo.foldl (fun acc x => groupInsert (key x) x acc) acc,
        ∀ w ∈ p.2, w ∈ items := by
    intro todo
    induction todo with
    | nil => intro acc hacc htodo; simpa using hacc
    | cons x xs ih =>
      intro acc hacc htodo
      simp only [List.foldl_cons]
      exact ih _
        (groupInsert_sub (key x) x acc items hacc (htodo x (by simp)))
        (fun z hz => htodo z (List.mem_cons_of_mem _ hz))
  exact main items [] (by simp) (fun x hx => hx)

theorem mapOpt_mem {α β : Type} (f : α → Option β) (l : List α)
    (l2 : List β) (h : mapOpt f l = some l2) :
    ∀ b ∈ l2, ∃ a ∈ l, f a = some b := by
  induction l generalizing l2 with
  | nil =>
    simp [mapOpt] at h
    subst h
    simp
  | cons x xs ih =>
    rw [mapOpt] at h
    cases hfx : f x with
    | none => rw [hfx] at h; simp at h
    | some y =>
      rw [hfx] at h
      cases hxs : mapOpt f xs with
      | none => rw [hxs] at h; simp at h
      | some ys =>
        rw [hxs] at h
        simp at h
        subst h
        intro b hb
        rcases List.mem_cons.1 hb with hb | hb
        · exact ⟨x, by simp, by rw [hfx, hb]⟩
        · obtain ⟨a, ha, hfa⟩ := ih ys hxs b hb
          exact ⟨a, List.mem_cons_of_mem _ ha, hfa⟩

theorem mapOpt_sum {α β : Type} (f : α → Option β) (g : β → ℕ) (h : α → ℕ)
    (hfg : ∀ a b, f a = some b → g b = h a) (l : List α) (l2 : List β)
    (hm : mapOpt f l = some l2) : (l2.map g).sum = (l.map h).sum := by
  induction l generalizing l2 with
  | nil =>
    simp [mapOpt] at hm
    subst hm
    simp
  | cons x xs ih =>
    rw [mapOpt] at hm
    cases hfx : f x with
    | none => rw [hfx] at hm; simp at hm
    | some y =>
      rw [hfx] at hm
      cases hxs : mapOpt f xs with
      | none => rw [hxs] at hm; simp at hm
      | some ys =>
        rw [hxs] at hm
        simp at hm
        subst hm
        simp [ih ys hxs, hfg x y hfx]

theorem sum_map_ones {α : Type} (l : List α) :
    (l.map (fun _ => (1 : ℕ))).sum = l.length := by
  induction l with
  | nil => rfl
  | cons x xs ih => simp [ih]; omega

/-! ### C3: count conservation through the three levels -/

/-- C3: for an extracted commit set of size N (all batches together), the
daily `commit_count`s sum to N; when the weekly summarizer succeeds, the
weekly counts sum to N, and the monthly counts computed from those weekly
buckets also sum to N. -/
theorem c3_count_conservation (detect : List String → WeightMap)
    (llm1 : List CommitRec → String) (llm2 : List DailyRec → String)
    (llm3 : List WeeklyRec → String) (batches : List (List CommitRec)) :
    ((dailySummarize detect llm1 batches).map
      (fun r => r.commit_count)).sum = batches.join.length ∧
    ∀ ws, weeklySummarize llm2 (dailySummarize detect llm1 batches) =
        some ws →
      (ws.map (fun r => r.commit_count)).sum = batches.join.length ∧
      ((monthlySummarize llm3 ws).map (fun r => r.commit_count)).sum =
        batches.join.length := by
  have hdaily : ((dailySummarize detect llm1 batches).map
      (fun r => r.commit_count)).sum = batches.join.length := by
    rw [dailySummarize, List.map_map]
    have := groupByKey_sum (fun c : CommitRec => c.date)
      (fun _ => (1 : ℕ)) batches.join
    rw [sum_map_ones] at this
    rw [← this]
    congr 1
    apply List.map_congr_left
    intro g _
    simp [sum_map_ones]
  refine ⟨hdaily, ?_⟩
  intro ws hws
  have hweekly : (ws.map (fun r => r.commit_count)).sum =
      batches.join.length := by
    rw [weeklySummarize] at hws
    have := mapOpt_sum _ (fun r : WeeklyRec => r.commit_count)
      (fun g => (g.2.map (fun r : DailyRec => r.commit_count)).sum)
      ?_ _ ws hws
    · rw [this, groupByKey_sum, ← hdaily]
    · intro a b hab
      rcases hcons : consolidate_technologies_weekly
          (a.2.map (fun r => r.technologies)) with _ | techs
      · rw [hcons] at hab; simp at hab
      · rw [hcons] at hab
        simp at hab
        subst hab
        rfl
  refine ⟨hweekly, ?_⟩
  rw [monthlySummarize, List.map_map]
  have := groupByKey_sum (fun r : WeeklyRec => monthKey r.start_date)
    (fun r : WeeklyRec => r.commit_count) ws
  rw [← hweekly, ← this]
  congr 1

/-! ### C7: week boundaries -/

/-- C7: every weekly bucket groups daily buckets under the Monday on or
before their date: each produced bucket's `start_date` is a valid Monday
(`weekday = 0`) and its `end_date` is exactly six days later; and a
Sunday date and the following Monday have different weekly grouping keys,
so they land in different buckets. -/
theorem c7_week_boundary (llm : List DailyRec → String)
    (data : List DailyRec) (hv : ∀ r ∈ data, r.date.Valid) :
    (∀ ws, weeklySummarize llm data = some ws →
      ∀ b ∈ ws, (b.start_date.Valid ∧ weekday b.start_date = 0) ∧
        b.end_date = addDays 6 b.start_date) ∧
    (∀ d : Date, d.Valid → weekday d = 6 →
      weekKey d ≠ weekKey (nextDay d)) := by
  constructor
  · intro ws hws b hb
    rw [weeklySummarize] at hws
    obtain ⟨g, hg, hfg⟩ := mapOpt_mem _ _ _ hws b hb
    rcases hcons : consolidate_technologies_weekly
        (g.2.map (fun r => r.technologies)) with _ | techs
    · rw [hcons] at hfg; simp at hfg
    · rw [hcons] at hfg
      rw [Option.map_some'] at hfg
      rw [Option.some_inj] at hfg
      have hstart : b.start_date = g.1 := by rw [← hfg]
      have hend : b.end_date = addDays 6 g.1 := by rw [← hfg]
      obtain ⟨hne, hkeys⟩ :=
        groupByKey_members (fun r : DailyRec => weekKey r.date) data g hg
      obtain ⟨r, hr⟩ := List.exists_mem_of_ne_nil g.2 hne
      have hkey : weekKey r.date = g.1 := hkeys r hr
      have hrv := hv r (groupByKey_sub _ data g hg r hr)
      obtain ⟨hvk, hmon, _⟩ := weekKey_spec r.date hrv
      refine ⟨⟨?_, ?_⟩, ?_⟩
      · rw [hstart, ← hkey]
        exact hvk
      · rw [hstart, ← hkey]
        exact hmon
      · rw [hend, hstart]
  · intro d hvD hsun heq
    obtain ⟨_, _, hordd⟩ := weekKey_spec d hvD
    have hvn := nextDay_valid d hvD
    obtain ⟨_, _, hordn⟩ := weekKey_spec (nextDay d) hvn
    have hon := toOrdinal_nextDay d hvD
    have hpos := toOrdinal_pos d hvD
    have h7 : weekday (nextDay d) = 0 := by
      rw [weekday, hon]
      rw [weekday] at hsun
      omega
    have hcontra : toOrdinal (weekKey d) = toOrdinal (weekKey (nextDay d)) :=
      by rw [heq]
    rw [hordd, hordn, hon, hsun, h7] at hcontra
    omega

/-! ### C8: month boundaries -/

/-- C8: the `day-28 plus 4 days` rollover computes the true last calendar
day of any month (31st/30th/28th, and the 29th for a leap-year February);
every monthly bucket's `end_date` is the true last day of the month of its
`start_date`; and weekly records whose `start_date`s lie in different
months get different monthly grouping keys, hence land in different
monthly buckets. -/
theorem c8_month_boundary :
    (∀ (y m dd : ℕ), 1 ≤ y → 1 ≤ m → m ≤ 12 →
      last_day_of_month ⟨y, m, dd⟩ = ⟨y, m, daysInMonth y m⟩) ∧
    (∀ (llm : List WeeklyRec → String) (data : List WeeklyRec),
      (∀ r ∈ data, r.start_date.Valid) →
      ∀ b ∈ monthlySummarize llm data,
        b.end_date = ⟨b.start_date.year, b.start_date.month,
          daysInMonth b.start_date.year b.start_date.month⟩) ∧
    ∀ r1 r2 : WeeklyRec,
      (r1.start_date.year, r1.start_date.month) ≠
        (r2.start_date.year, r2.start_date.month) →
      monthKey r1.start_date ≠ monthKey r2.start_date := by
  refine ⟨last_day_of_month_correct, ?_, ?_⟩
  · intro llm data hv b hb
    rw [monthlySummarize] at hb
    obtain ⟨g, hg, hmap⟩ := List.mem_map.1 hb
    have hstart : b.start_date = g.1 := by rw [← hmap]
    have hend : b.end_date = last_day_of_month g.1 := by rw [← hmap]
    obtain ⟨hne, hkeys⟩ :=
      groupByKey_members (fun r : WeeklyRec => monthKey r.start_date) data g hg
    obtain ⟨r, hr⟩ := List.exists_mem_of_ne_nil g.2 hne
    have hkey : monthKey r.start_date = g.1 := hkeys r hr
    have hrv := hv r (groupByKey_sub _ data g hg r hr)
    obtain ⟨hy, hm1, hm2, _, _⟩ := hrv
    rw [hend, hstart, ← hkey]
    rw [monthKey]
    exact last_day_of_month_correct r.start_date.year r.start_date.month 1
      hy hm1 hm2
  · intro r1 r2 hne heq
    apply hne
    have h1 := congrArg Date.year heq
    have h2 := congrArg Date.month heq
    simp [monthKey] at h1 h2
    simp [h1, h2]

/-- Witness for C7: 2024-01-14 is a Sunday; it and the following Monday
get different weekly keys. -/
theorem c7_week_boundary_witness :
    ((⟨2024, 1, 14⟩ : Date).Valid ∧ weekday ⟨2024, 1, 14⟩ = 6) ∧
    weekKey ⟨2024, 1, 14⟩ ≠ weekKey (nextDay ⟨2024, 1, 14⟩) :=
  ⟨⟨⟨by norm_num, by norm_num, by norm_num, by norm_num,
      by norm_num [daysInMonth]⟩, by decide⟩,
    (c7_week_boundary (fun _ => "") [] (by simp)).2 ⟨2024, 1, 14⟩
      ⟨by norm_num, by norm_num, by norm_num, by norm_num,
        by norm_num [daysInMonth]⟩ (by decide)⟩

/-- Witness for C8: February 2024 (a leap year) ends on the 29th. -/
theorem c8_month_boundary_witness :
    ((1 : ℕ) ≤ 2024 ∧ (1 : ℕ) ≤ 2 ∧ (2 : ℕ) ≤ 12) ∧
    last_day_of_month ⟨2024, 2, 1⟩ = ⟨2024, 2, 29⟩ :=
  ⟨⟨by norm_num, by norm_num, by norm_num⟩,
    (c8_month_boundary.1 2024 2 1 (by norm_num) (by norm_num)
      (by norm_num)).trans (by decide)⟩

/-! ### Witness material for C3 -/

def commitEx : CommitRec :=
  ⟨"h", "a", "e", ⟨2024, 1, 15⟩, "Implement caching layer for resolver",
    ["main.py"]⟩

def dailyEx : DailyRec := ⟨⟨2024, 1, 15⟩, 1, [("python", 100)], ""⟩

def weeklyEx : WeeklyRec :=
  ⟨⟨2024, 1, 15⟩, ⟨2024, 1, 21⟩, 1, [("python", 100)], ""⟩

theorem dailyEx_eq :
    dailySummarize (fun _ => [("python", 100)]) (fun _ => "") [[commitEx]] =
      [dailyEx] := rfl

theorem consolidate_weekly_100 :
    consolidate_technologies_weekly [[("python", 100)]] =
      some [("python", 100)] := by
  have htot : technologyTotals [[("python", 100)]] = [("python", 100)] := by
    simp [technologyTotals, addWeight]
  have hperc : percentagesOf [[("python", 100)]] = [("python", 100)] := by
    rw [percentagesOf, htot]
    norm_num [sumVals]
  have hround : roundedOf [[("python", 100)]] = [("python", 100)] := by
    rw [roundedOf, hperc]
    have hfr : Int.fract ((10000 : ℚ)) < 1 / 2 := by
      rw [Int.fract]
      norm_num
    norm_num [round2, roundHalfEven, hfr]
  have hcs : sumVals (roundedOf [[("python", 100)]]) = 100 := by
    rw [hround]
    norm_num [sumVals]
  rw [consolidate_technologies_weekly]
  simp only [htot]
  rw [if_neg (by norm_num [sumVals] :
    ¬([(("python" : String), (100 : ℚ))] ≠ [] ∧
      sumVals [("python", 100)] = 0))]
  rw [if_pos hcs, hround]
  simp [sortKey, insertKey]

theorem weeklyEx_eq :
    weeklySummarize (fun _ => "") [dailyEx] = some [weeklyEx] := by
  have hwk : weekKey (⟨2024, 1, 15⟩ : Date) = ⟨2024, 1, 15⟩ := by decide
  have hgrp : groupByKey (fun r : DailyRec => weekKey r.date) [dailyEx] =
      [(⟨2024, 1, 15⟩, [dailyEx])] := by
    simp [groupByKey, groupInsert, dailyEx, hwk]
  rw [weeklySummarize, hgrp]
  have hmap : ([dailyEx].map (fun r => r.technologies)) =
      [[(("python" : String), (100 : ℚ))]] := rfl
  simp only [mapOpt, hmap, consolidate_weekly_100, Option.map_some']
  have hend : addDays 6 (⟨2024, 1, 15⟩ : Date) = ⟨2024, 1, 21⟩ := by decide
  simp [weeklyEx, dailyEx, hend]

/-- Witness for C3 at one commit: all three levels sum to 1. -/
theorem c3_count_conservation_witness :
    weeklySummarize (fun _ => "")
        (dailySummarize (fun _ => [("python", 100)]) (fun _ => "")
          [[commitEx]]) = some [weeklyEx] ∧
    (([weeklyEx].map (fun r => r.commit_count)).sum =
      [[commitEx]].join.length ∧
     ((monthlySummarize (fun _ => "") [weeklyEx]).map
        (fun r => r.commit_count)).sum = [[commitEx]].join.length) := by
  have hws : weeklySummarize (fun _ => "")
      (dailySummarize (fun _ => [("python", 100)]) (fun _ => "")
        [[commitEx]]) = some [weeklyEx] := by
    rw [dailyEx_eq, weeklyEx_eq]
  exact ⟨hws,
    (c3_count_conservation (fun _ => [("python", 100)]) (fun _ => "")
      (fun _ => "") (fun _ => "") [[commitEx]]).2 [weeklyEx] hws⟩

/-! ### C9: the stage cache -/

/-- `FileCache.process_and_save` (file_cache.py lines 9-51), over an
abstract store for one stage key: `stored` holds the cache file's
contents when the file exists; the stage body `f` returns `none` when it
raises.  The result pair is (store contents afterwards, returned value),
`none` in the second component meaning the call raised.  When the file
exists its content is loaded and returned without calling the stage; when
it does not, the stage runs and `write_text` persists the result only
after the stage function has returned. -/
def process_and_save {α : Type} (stored : Option α) (f : Unit → Option α) :
    Option α × Option α :=
  match stored with
  | some r => (some r, some r)
  | none =>
    match f () with
    | none => (none, none)
    | some result => (some result, some result)

/-- C9: with a stored result the stage function is not invoked (the
outcome does not depend on it) and the stored result is returned
verbatim with the store unchanged; with no stored result a raising stage
persists nothing, and a returning stage has its full result persisted
and returned. -/
theorem c9_stage_cache (α : Type) (stored : Option α)
    (f : Unit → Option α) :
    (∀ r, stored = some r →
      process_and_save stored f = (some r, some r) ∧
      ∀ g, process_and_save stored g = process_and_save stored f) ∧
    (stored = none → f () = none →
      process_and_save stored f = (none, none)) ∧
    (stored = none → ∀ v, f () = some v →
      process_and_save stored f = (some v, some v)) := by
  refine ⟨?_, ?_, ?_⟩
  · intro r hr
    subst hr
    exact ⟨rfl, fun g => rfl⟩
  · intro hs hf
    subst hs
    simp [process_and_save, hf]
  · intro hs v hf
    subst hs
    simp [process_and_save, hf]

/-- Witness for C9 on a stored value 7 and on an empty store with a
raising stage. -/
theorem c9_stage_cache_witness :
    ((some 7 : Option ℕ) = some 7 ∧
      process_and_save (some 7) (fun _ => (none : Option ℕ)) =
        (some 7, some 7)) ∧
    ((none : Option ℕ) = none ∧
      process_and_save (none : Option ℕ) (fun _ => (none : Option ℕ)) =
        (none, none)) :=
  ⟨⟨rfl, ((c9_stage_cache ℕ (some 7) (fun _ => none)).1 7 rfl).1⟩,
   ⟨rfl, (c9_stage_cache ℕ none (fun _ => none)).2.1 rfl rfl⟩⟩
